import Mathlib

/-!
Verification of the cookie-rs core: a shallow embedding of the request
`Cookie` parser/serializer (`src/cookie.rs`) and the `Set-Cookie`
parser/formatter (`src/set_cookie.rs`), together with proofs of the
specified properties.

Strings are modelled as `List Char` (`Str`).  All character-level helpers
(`splitOnChar`, `splitOnce`, `trim`, `toLowercase`, `startsWith`) are
executable models of the corresponding Rust `str` methods, restricted to
the ASCII fragment the headers use: `toLowercase` lowers the ASCII range
`A`-`Z` only (Rust's `to_lowercase` additionally lowers non-ASCII
letters, which never occur in the attribute grammar).
-/

/-- Strings as lists of characters: the model of Rust `String` / `&str`. -/
abbrev Str := List Char

/-- ASCII model of Rust `char::to_lowercase` as used by `str::to_lowercase`:
maps `A`-`Z` (codes 65-90) to `a`-`z` and leaves every other character. -/
def lowerChar (c : Char) : Char :=
  if 65 ≤ c.toNat ∧ c.toNat ≤ 90 then Char.ofNat (c.toNat + 32) else c

/-- Model of Rust `str::to_lowercase` (ASCII fragment). -/
def toLowercase (s : Str) : Str := s.map lowerChar

/-- Model of Rust `str::split(sep)` for a single-`char` pattern: splits at
every occurrence of `sep`; the empty string yields one empty segment. -/
def splitOnChar (sep : Char) : Str → List Str
  | [] => [[]]
  | c :: cs =>
    let rest := splitOnChar sep cs
    if c = sep then [] :: rest
    else (c :: rest.headD []) :: rest.tail

/-- Model of Rust `str::split_once(sep)`: `some (before, after)` at the
first occurrence of `sep`, `none` when `sep` does not occur. -/
def splitOnce (sep : Char) : Str → Option (Str × Str)
  | [] => none
  | c :: cs =>
    if c = sep then some ([], cs)
    else (splitOnce sep cs).map (fun p => (c :: p.1, p.2))

/-- Model of Rust `str::starts_with(pat)` for a string pattern. -/
def startsWith : Str → Str → Bool
  | _, [] => true
  | [], _ :: _ => false
  | c :: cs, p :: ps => c == p && startsWith cs ps

/-- Model of Rust `str::trim_start` (ASCII whitespace fragment). -/
def trimStart (s : Str) : Str := s.dropWhile Char.isWhitespace

/-- Model of Rust `str::trim_end` (ASCII whitespace fragment). -/
def trimEnd (s : Str) : Str := (s.reverse.dropWhile Char.isWhitespace).reverse

/-- Model of Rust `str::trim` (ASCII whitespace fragment). -/
def trim (s : Str) : Str := trimEnd (trimStart s)

/-- The decimal digit character for `n % 10`. -/
def digitChar (n : Nat) : Char :=
  if n = 0 then '0' else if n = 1 then '1' else if n = 2 then '2'
  else if n = 3 then '3' else if n = 4 then '4' else if n = 5 then '5'
  else if n = 6 then '6' else if n = 7 then '7' else if n = 8 then '8'
  else '9'

/-- Decimal digits of a natural number, most significant first, with
structural fuel so that the definition reduces in the kernel; the fuel
is always sufficient because a number needs at most `n` digits. -/
def natToStrAux : Nat → Nat → Str
  | 0, _ => []
  | fuel + 1, n => if n = 0 then [] else natToStrAux fuel (n / 10) ++ [digitChar (n % 10)]

/-- Decimal digits of a natural number, most significant first
(`[]` for `0`; used only through `intToStr`, which special-cases `0`). -/
def natToStr (n : Nat) : Str := natToStrAux n n

/-- Model of Rust `i64::to_string`: minimal decimal form with a leading
`-` for negative values. -/
def intToStr (n : Int) : Str :=
  if n = 0 then ['0']
  else if n < 0 then '-' :: natToStr n.natAbs
  else natToStr n.natAbs

/-- Value of a digit string (no sign): `none` unless the string is
non-empty and all-digits.  Helper for `parseI64`. -/
def parseDigits (s : Str) : Option Nat :=
  if s.isEmpty then none
  else if s.all Char.isDigit then
    some (s.foldl (fun acc c => acc * 10 + (c.toNat - 48)) 0)
  else none

/-- Model of Rust `str::parse::<i64>()`: optional `+`/`-` sign, one or
more decimal digits, nothing else, with the `i64` range check. -/
def parseI64 (s : Str) : Option Int :=
  match s with
  | [] => none
  | c :: cs =>
    if c = '+' then
      (parseDigits cs).bind fun n =>
        if (n : Int) ≤ 9223372036854775807 then some (n : Int) else none
    else if c = '-' then
      (parseDigits cs).bind fun n =>
        if (n : Int) ≤ 9223372036854775808 then some (-(n : Int)) else none
    else
      (parseDigits (c :: cs)).bind fun n =>
        if (n : Int) ≤ 9223372036854775807 then some (n : Int) else none

/-- Model of `HashMap::insert` on an association-list representation:
replaces the value at an existing key in place, otherwise appends the
new entry.  The list order models the map's (unspecified) iteration
order deterministically. -/
def mapInsert {α : Type} (k : Str) (v : α) : List (Str × α) → List (Str × α)
  | [] => [(k, v)]
  | (k', v') :: rest => if k' = k then (k, v) :: rest else (k', v') :: mapInsert k v rest

/-- Model of itertools `join(";")` over formatted segments: the segments
separated by `;`, with no separator around the ends. -/
def joinTokens : List Str → Str
  | [] => []
  | t :: ts => t ++ (ts.map (fun u => ';' :: u)).flatten

/-! ## The `Set-Cookie` side (`src/set_cookie.rs`) -/

/-- The `SameSite` enum of `set_cookie.rs`. -/
inductive SameSite : Type where
  | Strict : SameSite
  | Lax : SameSite
  | None : SameSite
deriving DecidableEq, Repr

/-- `SameSite::as_str` from `set_cookie.rs`. -/
def SameSite.as_str : SameSite → Str
  | SameSite.Strict => ("Strict".data)
  | SameSite.Lax => ("Lax".data)
  | SameSite.None => ("None".data)

/-- `impl FromStr for SameSite` from `set_cookie.rs`: only the exact
lowercase spellings are accepted. -/
def SameSite.fromStr (s : Str) : Option SameSite :=
  if s = ("strict".data) then some SameSite.Strict
  else if s = ("lax".data) then some SameSite.Lax
  else if s = ("none".data) then some SameSite.None
  else none

/-- The `SetCookieOptions` record of `set_cookie.rs` (the attributes of
one `Set-Cookie` entry). `max_age` is `i64` in the source; it is modelled
as `Int`, with the `i64` range imposed as a hypothesis where it matters. -/
structure SetCookieOptions where
  http_only : Bool := false
  secure : Bool := false
  max_age : Option Int := none
  domain : Option Str := none
  path : Option Str := none
  same_site : Option SameSite := none
deriving DecidableEq, Repr

/-- `SetCookieOptions::is_set_cookie_option` from `set_cookie.rs`: the
token classifier separating attribute tokens from `name=value` tokens. -/
def SetCookieOptions.is_set_cookie_option (st0 : Str) : Bool :=
  let st := toLowercase st0
  startsWith st ("max-age=".data)
    || startsWith st ("domain=".data)
    || startsWith st ("path=".data)
    || st == ("httponly".data)
    || st == ("secure".data)

/-- One iteration of the loop in `impl From<Vec<&str>> for SetCookieOptions`
(`set_cookie.rs` lines 122-146): lowercase the token, then update the
matching field. -/
def SetCookieOptions.applyToken (options : SetCookieOptions) (st0 : Str) : SetCookieOptions :=
  let st := toLowercase st0
  if startsWith st ("domain=".data) then
    { options with domain := some (((splitOnChar '=' st).get? 1).getD []) }
  else if startsWith st ("max-age=".data) then
    { options with
        max_age := some ((((splitOnChar '=' st).get? 1).bind parseI64).getD 0) }
  else if startsWith st ("path=".data) then
    { options with path := some (((splitOnChar '=' st).get? 1).getD ("/".data)) }
  else if startsWith st ("httponly".data) then
    { options with http_only := true }
  else if startsWith st ("secure".data) then
    { options with secure := true }
  else if startsWith st ("samesite".data) then
    match ((splitOnChar '=' st).get? 1).bind SameSite.fromStr with
    | some same_site => { options with same_site := some same_site }
    | none => options
  else options

/-- `impl From<Vec<&str>> for SetCookieOptions` from `set_cookie.rs`:
fold the attribute-token loop over the token list, starting from the
all-default record. -/
def SetCookieOptions.fromTokens (xs : List Str) : SetCookieOptions :=
  xs.foldl SetCookieOptions.applyToken {}

/-- A `SetCookie` store: cookie name to `(value, options)`, modelled as
an association list standing for the source's `HashMap` (see `mapInsert`). -/
abbrev SetCookieStore := List (Str × (Str × SetCookieOptions))

/-- One iteration of the loop in `impl From<I> for SetCookie`
(`set_cookie.rs` lines 336-362): split on `;`, trim, partition by the
classifier, take the first non-attribute token, and insert its first two
`=`-separated segments as key and value; skip the raw value when there
is no such token or it has no `=`. -/
def SetCookie.insertRaw (store : SetCookieStore) (header_value : Str) : SetCookieStore :=
  let tokens := (splitOnChar ';' header_value).map trim
  let options := tokens.filter (fun st => SetCookieOptions.is_set_cookie_option st)
  let key_value := tokens.filter (fun st => !(SetCookieOptions.is_set_cookie_option st))
  match key_value.head? with
  | Option.none => store
  | Option.some st =>
    let segs := splitOnChar '=' st
    match segs.get? 0, segs.get? 1 with
    | Option.some key, Option.some value =>
      mapInsert key (value, SetCookieOptions.fromTokens options) store
    | _, _ => store

/-- `impl From<I> for SetCookie` from `set_cookie.rs`: parse each raw
`Set-Cookie` header value in order into the store. -/
def SetCookie.fromRaws (it : List Str) : SetCookieStore :=
  it.foldl SetCookie.insertRaw []

/-- The `fmt` function of `set_cookie.rs` (lines 236-324): format one
entry as `key=value` followed by the present attributes in the source's
push order (Domain, Max-Age, Path, SameSite, HttpOnly, Secure), each
preceded by `;` with no space. -/
def fmt (key value : Str) (o : SetCookieOptions) : Str :=
  let max_age := o.max_age.map intToStr
  let same_site := o.same_site.map SameSite.as_str
  let base := key ++ '=' :: value
  let base := match o.domain with
    | Option.some domain => (base ++ [';']) ++ ("Domain=".data) ++ domain
    | Option.none => base
  let base := match max_age with
    | Option.some max_age => (base ++ [';']) ++ ("Max-Age=".data) ++ max_age
    | Option.none => base
  let base := match o.path with
    | Option.some path => (base ++ [';']) ++ ("Path=".data) ++ path
    | Option.none => base
  let base := match same_site with
    | Option.some same_site => (base ++ [';']) ++ ("SameSite=".data) ++ same_site
    | Option.none => base
  let base := if o.http_only then (base ++ [';']) ++ ("HttpOnly".data) else base
  let base := if o.secure then (base ++ [';']) ++ ("Secure".data) else base
  base

/-! ## The request `Cookie` side (`src/cookie.rs`) -/

/-- A request `Cookie` map: cookie name to value, modelled as an
association list standing for the source's `HashMap` (see `mapInsert`). -/
abbrev CookieInner := List (Str × Str)

/-- `Cookie::from_cookie` from `cookie.rs` (lines 40-54): split the
header value on `;`; each segment must `split_once('=')` (the `?`
aborts the whole parse with `None` otherwise); the key is trimmed, the
value is not; later duplicate keys overwrite earlier ones. -/
def Cookie.from_cookie (x : Str) : Option CookieInner :=
  (splitOnChar ';' x).foldlM
    (fun inner key_value =>
      (splitOnce '=' key_value).map (fun p => mapInsert (trim p.1) p.2 inner))
    []

/-- `Cookie::to_str` from `cookie.rs` (lines 100-106): `key=value`
segments joined by `;`, in the map's iteration order (modelled by the
association list's order). -/
def Cookie.to_str (inner : CookieInner) : Str :=
  joinTokens (inner.map (fun kv => kv.1 ++ '=' :: kv.2))

/-! ## Character-level lemmas -/

theorem char_eq_of_toNat_eq {a b : Char} (h : a.toNat = b.toNat) : a = b :=
  Char.ext (UInt32.toNat.inj h)

theorem lowerChar_of_upper {c : Char} (h : 65 ≤ c.toNat ∧ c.toNat ≤ 90) :
    (lowerChar c).toNat = c.toNat + 32 := by
  unfold lowerChar
  rw [if_pos h]
  have hv : (c.toNat + 32).isValidChar := by
    unfold Nat.isValidChar
    left
    omega
  rw [Char.ofNat, dif_pos hv]
  simp [Char.ofNatAux, Char.toNat, UInt32.toNat]

theorem lowerChar_of_not_upper {c : Char} (h : ¬(65 ≤ c.toNat ∧ c.toNat ≤ 90)) :
    lowerChar c = c := by
  unfold lowerChar
  rw [if_neg h]

/-- `lowerChar` never produces an uppercase ASCII letter. -/
theorem lowerChar_not_upper (c : Char) :
    ¬(65 ≤ (lowerChar c).toNat ∧ (lowerChar c).toNat ≤ 90) := by
  by_cases h : 65 ≤ c.toNat ∧ c.toNat ≤ 90
  · rw [lowerChar_of_upper h]
    omega
  · rw [lowerChar_of_not_upper h]
    exact h

/-- For a target character that is neither an uppercase nor a lowercase
ASCII letter, `lowerChar c = x` happens only at `c = x`. -/
theorem lowerChar_eq_iff {c x : Char}
    (hx : x.toNat < 65 ∨ (90 < x.toNat ∧ x.toNat < 97) ∨ 122 < x.toNat) :
    lowerChar c = x ↔ c = x := by
  constructor
  · intro h
    by_cases hc : 65 ≤ c.toNat ∧ c.toNat ≤ 90
    · exfalso
      have := lowerChar_of_upper hc
      rw [h] at this
      omega
    · rwa [lowerChar_of_not_upper hc] at h
  · intro h
    subst h
    apply lowerChar_of_not_upper
    omega

theorem toLowercase_append (a b : Str) :
    toLowercase (a ++ b) = toLowercase a ++ toLowercase b :=
  List.map_append ..

theorem mem_toLowercase {x : Char} {s : Str}
    (hx : x.toNat < 65 ∨ (90 < x.toNat ∧ x.toNat < 97) ∨ 122 < x.toNat) :
    x ∈ toLowercase s ↔ x ∈ s := by
  unfold toLowercase
  rw [List.mem_map]
  constructor
  · rintro ⟨c, hc, rfl⟩
    rwa [(lowerChar_eq_iff hx).mp rfl] at hc
  · intro h
    exact ⟨x, h, (lowerChar_eq_iff hx).mpr rfl⟩

/-! ## `startsWith` lemmas -/

theorem startsWith_iff {s p : Str} : startsWith s p = true ↔ ∃ t, s = p ++ t := by
  induction p generalizing s with
  | nil => simp [startsWith]
  | cons c cs ih =>
    cases s with
    | nil =>
      simp only [startsWith, List.cons_append]
      constructor
      · intro h
        cases h
      · rintro ⟨t, h⟩
        cases h
    | cons d ds =>
      simp only [startsWith, Bool.and_eq_true, beq_iff_eq, ih, List.cons_append]
      constructor
      · rintro ⟨rfl, t, rfl⟩
        exact ⟨t, rfl⟩
      · rintro ⟨t, h⟩
        obtain ⟨rfl, rfl⟩ := List.cons.inj h
        exact ⟨rfl, t, rfl⟩

theorem startsWith_append_self (p t : Str) : startsWith (p ++ t) p = true :=
  startsWith_iff.mpr ⟨t, rfl⟩

/-! ## `splitOnChar` and `splitOnce` lemmas -/

theorem splitOnChar_nil (sep : Char) : splitOnChar sep [] = [[]] := rfl

theorem splitOnChar_cons (sep c : Char) (cs : Str) :
    splitOnChar sep (c :: cs) =
      if c = sep then [] :: splitOnChar sep cs
      else (c :: (splitOnChar sep cs).headD []) :: (splitOnChar sep cs).tail := rfl

theorem splitOnChar_ne_nil (sep : Char) (s : Str) : splitOnChar sep s ≠ [] := by
  cases s with
  | nil => simp [splitOnChar_nil]
  | cons c cs =>
    rw [splitOnChar_cons]
    by_cases h : c = sep
    · simp [h]
    · rw [if_neg h]
      simp

theorem splitOnChar_of_not_mem {sep : Char} {s : Str} (h : sep ∉ s) :
    splitOnChar sep s = [s] := by
  induction s with
  | nil => rfl
  | cons c cs ih =>
    have hc : c ≠ sep := fun hc => h (hc ▸ List.mem_cons_self c cs)
    have hcs : sep ∉ cs := fun hm => h (List.mem_cons_of_mem c hm)
    rw [splitOnChar_cons, if_neg hc, ih hcs]
    rfl

theorem splitOnChar_append_sep {sep : Char} {a : Str} (b : Str) (h : sep ∉ a) :
    splitOnChar sep (a ++ sep :: b) = a :: splitOnChar sep b := by
  induction a with
  | nil => simp [splitOnChar]
  | cons c cs ih =>
    have hc : c ≠ sep := fun hc => h (hc ▸ List.mem_cons_self c cs)
    have hcs : sep ∉ cs := fun hm => h (List.mem_cons_of_mem c hm)
    rw [List.cons_append, splitOnChar_cons, if_neg hc, ih hcs]
    rfl

theorem mem_of_mem_splitOnChar {sep : Char} {s t : Str} {c : Char}
    (ht : t ∈ splitOnChar sep s) (hc : c ∈ t) : c ∈ s := by
  induction s generalizing t with
  | nil =>
    rw [splitOnChar_nil, List.mem_singleton] at ht
    subst ht
    cases hc
  | cons d ds ih =>
    rw [splitOnChar_cons] at ht
    by_cases hd : d = sep
    · rw [if_pos hd] at ht
      rcases List.mem_cons.mp ht with rfl | ht
      · cases hc
      · exact List.mem_cons_of_mem d (ih ht hc)
    · rw [if_neg hd] at ht
      rcases hs : splitOnChar sep ds with _ | ⟨s₀, ss⟩
      · exact absurd hs (splitOnChar_ne_nil sep ds)
      · rw [hs] at ht
        simp only [List.headD_cons, List.tail_cons] at ht
        rcases List.mem_cons.mp ht with rfl | ht
        · rcases List.mem_cons.mp hc with rfl | hc
          · exact List.mem_cons_self ..
          · exact List.mem_cons_of_mem _ (ih (hs ▸ List.mem_cons_self s₀ ss) hc)
        · exact List.mem_cons_of_mem d (ih (hs ▸ List.mem_cons_of_mem s₀ ht) hc)

theorem splitOnce_eq_none {sep : Char} {s : Str} (h : sep ∉ s) :
    splitOnce sep s = none := by
  induction s with
  | nil => rfl
  | cons c cs ih =>
    have hc : c ≠ sep := fun hc => h (hc ▸ List.mem_cons_self c cs)
    have hcs : sep ∉ cs := fun hm => h (List.mem_cons_of_mem c hm)
    unfold splitOnce
    rw [if_neg hc, ih hcs]
    rfl

theorem splitOnce_append {sep : Char} {a : Str} (b : Str) (h : sep ∉ a) :
    splitOnce sep (a ++ sep :: b) = some (a, b) := by
  induction a with
  | nil => simp [splitOnce]
  | cons c cs ih =>
    have hc : c ≠ sep := fun hc => h (hc ▸ List.mem_cons_self c cs)
    have hcs : sep ∉ cs := fun hm => h (List.mem_cons_of_mem c hm)
    rw [List.cons_append]
    unfold splitOnce
    rw [if_neg hc, ih hcs]
    rfl

/-! ## `trim` lemmas -/

theorem trimStart_cons_of_not_ws {c : Char} (s : Str) (h : Char.isWhitespace c = false) :
    trimStart (c :: s) = c :: s := by
  unfold trimStart
  rw [List.dropWhile_cons_of_neg]
  simp [h]

theorem not_ws_of_trimStart_cons {c : Char} {s : Str} (h : trimStart (c :: s) = c :: s) :
    Char.isWhitespace c = false := by
  by_contra hw
  rw [Bool.not_eq_false] at hw
  unfold trimStart at h
  rw [List.dropWhile_cons_of_pos hw] at h
  have := congrArg List.length h
  have hle := (List.dropWhile_sublist (l := s) Char.isWhitespace).length_le
  simp at this
  omega

theorem trimEnd_append {a b : Str} (hb : trimEnd b = b) (hne : b ≠ []) :
    trimEnd (a ++ b) = a ++ b := by
  rcases hr : b.reverse with _ | ⟨c, r⟩
  · exact absurd (by simpa using congrArg List.reverse hr) hne
  have hbr : b = r.reverse ++ [c] := by
    have := congrArg List.reverse hr
    simpa using this
  have hb' : List.dropWhile Char.isWhitespace b.reverse = b.reverse := by
    have := congrArg List.reverse hb
    unfold trimEnd at this
    rwa [List.reverse_reverse] at this
  rw [hr] at hb'
  have hc : Char.isWhitespace c = false := by
    by_contra hw
    simp only [Bool.not_eq_false] at hw
    rw [List.dropWhile_cons_of_pos hw] at hb'
    have hlen := congrArg List.length hb'
    have hle := (List.dropWhile_sublist (l := r) Char.isWhitespace).length_le
    simp at hlen
    omega
  unfold trimEnd
  rw [List.reverse_append, hr, List.cons_append,
      List.dropWhile_cons_of_neg (by simp [hc]), List.reverse_cons,
      List.reverse_append, List.reverse_reverse, List.append_assoc, ← hbr]

/-- A token of the form `front ++ [last]` with a non-whitespace last
character is fixed by `trimEnd`. -/
theorem trimEnd_concat {c : Char} (s : Str) (h : Char.isWhitespace c = false) :
    trimEnd (s ++ [c]) = s ++ [c] := by
  apply trimEnd_append _ (by simp)
  unfold trimEnd
  simp [h]

/-! ## Decimal representation lemmas -/

theorem digitChar_isDigit {m : Nat} (h : m < 10) : (digitChar m).isDigit = true := by
  interval_cases m <;> decide

theorem digitChar_toNat {m : Nat} (h : m < 10) : (digitChar m).toNat = m + 48 := by
  interval_cases m <;> decide

theorem natToStrAux_eq_of_le {f₁ f₂ n : Nat} (h₁ : n ≤ f₁) (h₂ : n ≤ f₂) :
    natToStrAux f₁ n = natToStrAux f₂ n := by
  induction n using Nat.strong_induction_on generalizing f₁ f₂ with
  | _ n ih =>
    rcases f₁ with _ | g₁ <;> rcases f₂ with _ | g₂
    · rfl
    · interval_cases n
      rw [natToStrAux]
      simp [natToStrAux]
    · interval_cases n
      rw [natToStrAux]
      simp [natToStrAux]
    · rcases Nat.eq_zero_or_pos n with rfl | hn
      · simp [natToStrAux]
      · have hne := Nat.pos_iff_ne_zero.mp hn
        have hlt : n / 10 < n := Nat.div_lt_self hn (by decide)
        rw [natToStrAux, natToStrAux, if_neg hne, if_neg hne]
        exact congrArg (· ++ [digitChar (n % 10)])
          (@ih (n / 10) hlt g₁ g₂ (by omega) (by omega))

/-- The recursion equation of `natToStr`, with the fuel eliminated. -/
theorem natToStr_eq {n : Nat} (h : n ≠ 0) :
    natToStr n = natToStr (n / 10) ++ [digitChar (n % 10)] := by
  have hn : 0 < n := Nat.pos_of_ne_zero h
  have hlt : n / 10 < n := Nat.div_lt_self hn (by decide)
  rcases n with _ | m
  · exact absurd rfl h
  · unfold natToStr
    rw [natToStrAux, if_neg h]
    rw [natToStrAux_eq_of_le (n := (m + 1) / 10) (by omega) (le_refl _)]

theorem natToStr_all_digits {n : Nat} : ∀ c ∈ natToStr n, c.isDigit = true := by
  induction n using Nat.strong_induction_on with
  | _ n ih =>
    rcases Nat.eq_zero_or_pos n with rfl | hn
    · intro c hc
      cases hc
    · have hne := Nat.pos_iff_ne_zero.mp hn
      rw [natToStr_eq hne]
      intro c hc
      rcases List.mem_append.mp hc with hc | hc
      · exact ih (n / 10) (Nat.div_lt_self hn (by decide)) c hc
      · rw [List.mem_singleton.mp hc]
        exact digitChar_isDigit (Nat.mod_lt n (by decide))

theorem natToStr_ne_nil {n : Nat} (h : n ≠ 0) : natToStr n ≠ [] := by
  rw [natToStr_eq h]
  simp

theorem foldl_digits_natToStr (n : Nat) :
    ∀ a : Nat, (natToStr n).foldl (fun acc c => acc * 10 + (c.toNat - 48)) a =
      a * 10 ^ (natToStr n).length + n := by
  induction n using Nat.strong_induction_on with
  | _ n ih =>
    intro a
    rcases Nat.eq_zero_or_pos n with rfl | hn
    · simp [natToStr, natToStrAux]
    · have hne := Nat.pos_iff_ne_zero.mp hn
      rw [natToStr_eq hne, List.foldl_append,
          ih (n / 10) (Nat.div_lt_self hn (by decide)) a]
      simp only [List.foldl_cons, List.foldl_nil, List.length_append,
        List.length_singleton]
      rw [digitChar_toNat (Nat.mod_lt n (by decide))]
      have h48 : n % 10 + 48 - 48 = n % 10 := by omega
      rw [h48, pow_succ]
      have hdm : 10 * (n / 10) + n % 10 = n := Nat.div_add_mod n 10
      calc (a * 10 ^ (natToStr (n / 10)).length + n / 10) * 10 + n % 10
          = a * (10 ^ (natToStr (n / 10)).length * 10) + (10 * (n / 10) + n % 10) := by
            ring
        _ = a * (10 ^ (natToStr (n / 10)).length * 10) + n := by rw [hdm]

theorem parseDigits_natToStr {n : Nat} (h : n ≠ 0) : parseDigits (natToStr n) = some n := by
  unfold parseDigits
  rw [if_neg (by simpa [List.isEmpty_iff] using natToStr_ne_nil h)]
  rw [if_pos (by rw [List.all_eq_true]; exact natToStr_all_digits)]
  rw [foldl_digits_natToStr n 0]
  simp

/-- Digits and the minus sign are the only characters of `intToStr`. -/
theorem intToStr_chars {m : Int} : ∀ c ∈ intToStr m, c.isDigit = true ∨ c = '-' := by
  unfold intToStr
  by_cases h0 : m = 0
  · rw [if_pos h0]
    intro c hc
    rw [List.mem_singleton.mp hc]
    left
    decide
  · rw [if_neg h0]
    by_cases hneg : m < 0
    · rw [if_pos hneg]
      intro c hc
      rcases List.mem_cons.mp hc with rfl | hc
      · right
        rfl
      · exact Or.inl (natToStr_all_digits c hc)
    · rw [if_neg hneg]
      intro c hc
      exact Or.inl (natToStr_all_digits c hc)

theorem isDigit_toNat {c : Char} (h : c.isDigit = true) : 48 ≤ c.toNat ∧ c.toNat ≤ 57 := by
  unfold Char.isDigit at h
  rw [Bool.and_eq_true, decide_eq_true_eq, decide_eq_true_eq] at h
  unfold Char.toNat
  exact ⟨h.1, h.2⟩

/-- Round trip of the `i64` decimal representation: formatting with
`intToStr` and re-parsing with `parseI64` restores the value, for every
value in the `i64` range. -/
theorem parseI64_intToStr {m : Int} (hlo : -9223372036854775808 ≤ m)
    (hhi : m ≤ 9223372036854775807) : parseI64 (intToStr m) = some m := by
  rcases lt_trichotomy m 0 with hneg | rfl | hpos
  · have h0 : m ≠ 0 := by omega
    have habs : m.natAbs ≠ 0 := by
      intro h
      exact h0 (Int.natAbs_eq_zero.mp h)
    rw [intToStr, if_neg h0, if_pos hneg]
    rw [parseI64, if_neg (by decide), if_pos rfl, parseDigits_natToStr habs]
    rw [Option.some_bind]
    have hle : ((m.natAbs : Int)) ≤ 9223372036854775808 := by
      rw [Int.natCast_natAbs, abs_of_neg hneg]
      omega
    rw [if_pos hle]
    congr 1
    rw [Int.natCast_natAbs, abs_of_neg hneg, neg_neg]
  · decide
  · have h0 : m ≠ 0 := by omega
    have habs : m.natAbs ≠ 0 := by
      intro h
      exact h0 (Int.natAbs_eq_zero.mp h)
    rw [intToStr, if_neg h0, if_neg (by omega)]
    rcases hrep : natToStr m.natAbs with _ | ⟨c, cs⟩
    · exact absurd hrep (natToStr_ne_nil habs)
    · have hcdig : c.isDigit = true := natToStr_all_digits c (by rw [hrep]; simp)
      have hcn := isDigit_toNat hcdig
      have hplus : c ≠ '+' := by
        intro h
        rw [h] at hcn
        revert hcn
        decide
      have hminus : c ≠ '-' := by
        intro h
        rw [h] at hcn
        revert hcn
        decide
      rw [parseI64, if_neg hplus, if_neg hminus, ← hrep, parseDigits_natToStr habs]
      rw [Option.some_bind]
      have hle : ((m.natAbs : Int)) ≤ 9223372036854775807 := by
        rw [Int.natCast_natAbs, abs_of_pos hpos]
        omega
      rw [if_pos hle]
      congr 1
      rw [Int.natCast_natAbs, abs_of_pos hpos]

theorem intToStr_no_eq {m : Int} : '=' ∉ intToStr m := by
  intro h
  rcases intToStr_chars _ h with hd | hd
  · have := isDigit_toNat hd
    revert this
    decide
  · cases hd

theorem intToStr_no_semi {m : Int} : ';' ∉ intToStr m := by
  intro h
  rcases intToStr_chars _ h with hd | hd
  · have := isDigit_toNat hd
    revert this
    decide
  · cases hd

theorem intToStr_no_ws {m : Int} : ∀ c ∈ intToStr m, Char.isWhitespace c = false := by
  intro c h
  rcases intToStr_chars _ h with hd | rfl
  · have := isDigit_toNat hd
    unfold Char.isWhitespace
    have h32 : c ≠ ' ' := by
      intro hc
      rw [hc] at this
      revert this
      decide
    have h9 : c ≠ '\t' := by
      intro hc
      rw [hc] at this
      revert this
      decide
    have h13 : c ≠ '\r' := by
      intro hc
      rw [hc] at this
      revert this
      decide
    have h10 : c ≠ '\n' := by
      intro hc
      rw [hc] at this
      revert this
      decide
    simp [h32, h9, h13, h10]
  · decide

theorem toLowercase_eq_self {s : Str} (h : ∀ c ∈ s, lowerChar c = c) :
    toLowercase s = s := by
  unfold toLowercase
  induction s with
  | nil => rfl
  | cons c cs ih =>
    rw [List.map_cons, h c (List.mem_cons_self ..),
      ih (fun d hd => h d (List.mem_cons_of_mem _ hd))]

theorem toLowercase_intToStr {m : Int} : toLowercase (intToStr m) = intToStr m := by
  apply toLowercase_eq_self
  intro c hc
  rcases intToStr_chars c hc with hd | rfl
  · apply lowerChar_of_not_upper
    have := isDigit_toNat hd
    omega
  · decide

/-! ## `joinTokens` lemmas -/

theorem joinTokens_pair (t u : Str) (ts : List Str) :
    joinTokens (t :: u :: ts) = t ++ ';' :: joinTokens (u :: ts) := by
  unfold joinTokens
  simp

theorem splitOnChar_joinTokens {ts : List Str} (hne : ts ≠ [])
    (h : ∀ t ∈ ts, ';' ∉ t) : splitOnChar ';' (joinTokens ts) = ts := by
  induction ts with
  | nil => exact absurd rfl hne
  | cons t ts ih =>
    cases ts with
    | nil =>
      have ht : joinTokens [t] = t := by simp [joinTokens]
      rw [ht, splitOnChar_of_not_mem (h t (List.mem_cons_self ..))]
    | cons u ts' =>
      rw [joinTokens_pair, splitOnChar_append_sep _ (h t (List.mem_cons_self ..)),
        ih (by simp) (fun x hx => h x (List.mem_cons_of_mem _ hx))]

/-! ## The attribute-token list produced by `fmt` -/

/-- The singleton-or-empty list of an optional attribute token. -/
def optList {α : Type} (f : α → Str) : Option α → List Str
  | Option.none => []
  | Option.some a => [f a]

/-- The attribute tokens that `fmt` emits after the `key=value` pair, in
emission order. -/
def optTokens (o : SetCookieOptions) : List Str :=
  optList (fun d => ("Domain=".data) ++ d) o.domain
    ++ optList (fun m => ("Max-Age=".data) ++ intToStr m) o.max_age
    ++ optList (fun p => ("Path=".data) ++ p) o.path
    ++ optList (fun s => ("SameSite=".data) ++ SameSite.as_str s) o.same_site
    ++ (if o.http_only then [("HttpOnly".data)] else [])
    ++ (if o.secure then [("Secure".data)] else [])

theorem mem_optList {α : Type} {f : α → Str} {dopt : Option α} {t : Str} :
    t ∈ optList f dopt ↔ ∃ x, dopt = some x ∧ t = f x := by
  cases dopt <;> simp [optList, eq_comm]

/-- `fmt` is the `;`-join of the `key=value` pair and the attribute
tokens. -/
theorem fmt_eq_joinTokens (key value : Str) (o : SetCookieOptions) :
    fmt key value o = joinTokens ((key ++ '=' :: value) :: optTokens o) := by
  rcases o with ⟨ho, hs, hm, hd, hp, hss⟩
  cases ho <;> cases hs <;> cases hm <;> cases hd <;> cases hp <;> cases hss <;>
    simp [fmt, optTokens, optList, joinTokens, List.append_assoc]

/-! ## Classifier lemmas -/

/-- If a string of the shape `a ++ sep :: b` (with `sep`-free `a`) starts
with the pattern `p ++ sep :: q` (with `sep`-free `p`), then `a = p`:
both are the segment before the first `sep`. -/
theorem startsWith_sep_pattern {s a b p q : Str} {sep : Char}
    (hs : s = a ++ sep :: b) (ha : sep ∉ a) (hp : sep ∉ p)
    (hw : startsWith s (p ++ sep :: q) = true) : a = p := by
  obtain ⟨t, ht⟩ := startsWith_iff.mp hw
  have h1 : splitOnce sep s = some (a, b) := hs ▸ splitOnce_append b ha
  have h2 : splitOnce sep s = some (p, q ++ t) := by
    rw [ht, List.append_assoc, List.cons_append]
    exact splitOnce_append _ hp
  rw [h1] at h2
  exact congrArg Prod.fst (Option.some.inj h2)

theorem toLowercase_pair (k v : Str) :
    toLowercase (k ++ '=' :: v) = toLowercase k ++ '=' :: toLowercase v := by
  rw [toLowercase_append]
  rfl

/-- A `key=value`-shaped token whose (lowercased) key is none of the
attribute names is not classified as an attribute token. -/
theorem is_set_cookie_option_pair_false {k v : Str} (hk : '=' ∉ k)
    (h1 : toLowercase k ≠ ("domain".data))
    (h2 : toLowercase k ≠ ("max-age".data))
    (h3 : toLowercase k ≠ ("path".data)) :
    SetCookieOptions.is_set_cookie_option (k ++ '=' :: v) = false := by
  have hlk : '=' ∉ toLowercase k := fun hm => hk ((mem_toLowercase (by decide)).mp hm)
  have heqmem : '=' ∈ toLowercase k ++ '=' :: toLowercase v :=
    List.mem_append_right _ (List.mem_cons_self ..)
  unfold SetCookieOptions.is_set_cookie_option
  rw [toLowercase_pair]
  have hma : startsWith (toLowercase k ++ '=' :: toLowercase v) ("max-age=".data) = false := by
    rw [Bool.eq_false_iff]
    intro hw
    rw [show ("max-age=".data) = ("max-age".data) ++ '=' :: [] by rfl] at hw
    exact h2 (startsWith_sep_pattern rfl hlk (by decide) hw)
  have hdo : startsWith (toLowercase k ++ '=' :: toLowercase v) ("domain=".data) = false := by
    rw [Bool.eq_false_iff]
    intro hw
    rw [show ("domain=".data) = ("domain".data) ++ '=' :: [] by rfl] at hw
    exact h1 (startsWith_sep_pattern rfl hlk (by decide) hw)
  have hpa : startsWith (toLowercase k ++ '=' :: toLowercase v) ("path=".data) = false := by
    rw [Bool.eq_false_iff]
    intro hw
    rw [show ("path=".data) = ("path".data) ++ '=' :: [] by rfl] at hw
    exact h3 (startsWith_sep_pattern rfl hlk (by decide) hw)
  have hh : ((toLowercase k ++ '=' :: toLowercase v) == ("httponly".data)) = false := by
    rw [beq_eq_false_iff_ne]
    intro heq
    rw [heq] at heqmem
    revert heqmem
    decide
  have hse : ((toLowercase k ++ '=' :: toLowercase v) == ("secure".data)) = false := by
    rw [beq_eq_false_iff_ne]
    intro heq
    rw [heq] at heqmem
    revert heqmem
    decide
  simp [hma, hdo, hpa, hh, hse]

theorem is_set_cookie_option_domainTok (d : Str) :
    SetCookieOptions.is_set_cookie_option (("Domain=".data) ++ d) = true := by
  unfold SetCookieOptions.is_set_cookie_option
  rw [toLowercase_append,
    show toLowercase ("Domain=".data) = ("domain=".data) by decide]
  simp [startsWith]

theorem is_set_cookie_option_maxAgeTok (m : Int) :
    SetCookieOptions.is_set_cookie_option (("Max-Age=".data) ++ intToStr m) = true := by
  unfold SetCookieOptions.is_set_cookie_option
  rw [toLowercase_append,
    show toLowercase ("Max-Age=".data) = ("max-age=".data) by decide]
  simp [startsWith]

theorem is_set_cookie_option_pathTok (p : Str) :
    SetCookieOptions.is_set_cookie_option (("Path=".data) ++ p) = true := by
  unfold SetCookieOptions.is_set_cookie_option
  rw [toLowercase_append,
    show toLowercase ("Path=".data) = ("path=".data) by decide]
  simp [startsWith]

theorem is_set_cookie_option_httpOnlyTok :
    SetCookieOptions.is_set_cookie_option ("HttpOnly".data) = true := by decide

theorem is_set_cookie_option_secureTok :
    SetCookieOptions.is_set_cookie_option ("Secure".data) = true := by decide

theorem startsWith_eqTok_true (a b : Str) :
    startsWith (a ++ '=' :: b) (a ++ '=' :: []) = true :=
  startsWith_iff.mpr ⟨b, by simp⟩

theorem startsWith_eqTok_false {a p : Str} (b q : Str) (ha : '=' ∉ a) (hp : '=' ∉ p)
    (hne : a ≠ p) : startsWith (a ++ '=' :: b) (p ++ '=' :: q) = false := by
  rw [Bool.eq_false_iff]
  intro hw
  exact hne (startsWith_sep_pattern rfl ha hp hw)

/-! ## `applyToken` step lemmas -/

theorem applyToken_domain (o : SetCookieOptions) {d : Str}
    (hlow : toLowercase d = d) (heq : '=' ∉ d) :
    o.applyToken (("Domain=".data) ++ d) = { o with domain := some d } := by
  simp only [SetCookieOptions.applyToken]
  rw [toLowercase_append, show toLowercase ("Domain=".data) = ("domain=".data) from by decide,
    hlow, if_pos (startsWith_append_self ..),
    show ("domain=".data) ++ d = ("domain".data) ++ '=' :: d from rfl,
    splitOnChar_append_sep d (by decide), splitOnChar_of_not_mem heq]
  rfl

theorem applyToken_maxAge (o : SetCookieOptions) {m : Int}
    (hlo : -9223372036854775808 ≤ m) (hhi : m ≤ 9223372036854775807) :
    o.applyToken (("Max-Age=".data) ++ intToStr m) = { o with max_age := some m } := by
  simp only [SetCookieOptions.applyToken]
  rw [toLowercase_append, show toLowercase ("Max-Age=".data) = ("max-age=".data) from by decide,
    toLowercase_intToStr,
    show ("max-age=".data) ++ intToStr m = ("max-age".data) ++ '=' :: intToStr m from rfl,
    if_neg (by
      show ¬startsWith (("max-age".data) ++ '=' :: intToStr m)
        (("domain".data) ++ '=' :: []) = true
      rw [startsWith_eqTok_false _ _ (by decide) (by decide) (by decide)]
      simp),
    if_pos (by
      show startsWith (("max-age".data) ++ '=' :: intToStr m)
        (("max-age".data) ++ '=' :: []) = true
      exact startsWith_eqTok_true ..),
    splitOnChar_append_sep _ (by decide), splitOnChar_of_not_mem intToStr_no_eq]
  simp [parseI64_intToStr hlo hhi]

theorem applyToken_path (o : SetCookieOptions) {p : Str}
    (hlow : toLowercase p = p) (heq : '=' ∉ p) :
    o.applyToken (("Path=".data) ++ p) = { o with path := some p } := by
  simp only [SetCookieOptions.applyToken]
  rw [toLowercase_append, show toLowercase ("Path=".data) = ("path=".data) from by decide,
    hlow,
    show ("path=".data) ++ p = ("path".data) ++ '=' :: p from rfl,
    if_neg (by
      show ¬startsWith (("path".data) ++ '=' :: p) (("domain".data) ++ '=' :: []) = true
      rw [startsWith_eqTok_false _ _ (by decide) (by decide) (by decide)]
      simp),
    if_neg (by
      show ¬startsWith (("path".data) ++ '=' :: p) (("max-age".data) ++ '=' :: []) = true
      rw [startsWith_eqTok_false _ _ (by decide) (by decide) (by decide)]
      simp),
    if_pos (by
      show startsWith (("path".data) ++ '=' :: p) (("path".data) ++ '=' :: []) = true
      exact startsWith_eqTok_true ..),
    splitOnChar_append_sep _ (by decide), splitOnChar_of_not_mem heq]
  rfl

theorem applyToken_httpOnly (o : SetCookieOptions) :
    o.applyToken ("HttpOnly".data) = { o with http_only := true } := by
  simp only [SetCookieOptions.applyToken]
  rw [show toLowercase ("HttpOnly".data) = ("httponly".data) from by decide]
  rw [if_neg (by decide), if_neg (by decide), if_neg (by decide), if_pos (by decide)]

theorem applyToken_secure (o : SetCookieOptions) :
    o.applyToken ("Secure".data) = { o with secure := true } := by
  simp only [SetCookieOptions.applyToken]
  rw [show toLowercase ("Secure".data) = ("secure".data) from by decide]
  rw [if_neg (by decide), if_neg (by decide), if_neg (by decide), if_neg (by decide),
    if_pos (by decide)]

/-! ## Folding `applyToken` over the formatted attribute tokens -/

theorem foldl_optList_domain (acc : SetCookieOptions) {dopt : Option Str}
    (h : ∀ d, dopt = some d → toLowercase d = d ∧ '=' ∉ d) :
    List.foldl SetCookieOptions.applyToken acc
        (optList (fun d => ("Domain=".data) ++ d) dopt)
      = { acc with domain := dopt.or acc.domain } := by
  cases dopt with
  | none => rfl
  | some d =>
    obtain ⟨h1, h2⟩ := h d rfl
    simp only [optList, List.foldl_cons, List.foldl_nil, applyToken_domain acc h1 h2,
      Option.or]

theorem foldl_optList_maxAge (acc : SetCookieOptions) {mopt : Option Int}
    (h : ∀ m, mopt = some m → -9223372036854775808 ≤ m ∧ m ≤ 9223372036854775807) :
    List.foldl SetCookieOptions.applyToken acc
        (optList (fun m => ("Max-Age=".data) ++ intToStr m) mopt)
      = { acc with max_age := mopt.or acc.max_age } := by
  cases mopt with
  | none => rfl
  | some m =>
    obtain ⟨h1, h2⟩ := h m rfl
    simp only [optList, List.foldl_cons, List.foldl_nil, applyToken_maxAge acc h1 h2,
      Option.or]

theorem foldl_optList_path (acc : SetCookieOptions) {popt : Option Str}
    (h : ∀ p, popt = some p → toLowercase p = p ∧ '=' ∉ p) :
    List.foldl SetCookieOptions.applyToken acc
        (optList (fun p => ("Path=".data) ++ p) popt)
      = { acc with path := popt.or acc.path } := by
  cases popt with
  | none => rfl
  | some p =>
    obtain ⟨h1, h2⟩ := h p rfl
    simp only [optList, List.foldl_cons, List.foldl_nil, applyToken_path acc h1 h2,
      Option.or]

theorem foldl_httpOnlyTok (acc : SetCookieOptions) (b : Bool) :
    List.foldl SetCookieOptions.applyToken acc (if b then [("HttpOnly".data)] else [])
      = { acc with http_only := acc.http_only || b } := by
  cases b with
  | false => simp
  | true =>
    rw [if_pos rfl, List.foldl_cons, List.foldl_nil, applyToken_httpOnly]
    simp

theorem foldl_secureTok (acc : SetCookieOptions) (b : Bool) :
    List.foldl SetCookieOptions.applyToken acc (if b then [("Secure".data)] else [])
      = { acc with secure := acc.secure || b } := by
  cases b with
  | false => simp
  | true =>
    rw [if_pos rfl, List.foldl_cons, List.foldl_nil, applyToken_secure]
    simp

theorem option_or_none {α : Type} (x : Option α) : x.or none = x := by
  cases x <;> rfl

/-- Rebuilding the attributes from the tokens `fmt` emitted recovers the
original record, provided `same_site` was absent and `domain`/`path`
survive lowercasing and contain no `=`, and `max_age` is in `i64` range. -/
theorem fromTokens_optTokens {o : SetCookieOptions} (hss : o.same_site = none)
    (hdom : ∀ d, o.domain = some d → toLowercase d = d ∧ '=' ∉ d)
    (hpath : ∀ p, o.path = some p → toLowercase p = p ∧ '=' ∉ p)
    (hma : ∀ m, o.max_age = some m →
      -9223372036854775808 ≤ m ∧ m ≤ 9223372036854775807) :
    SetCookieOptions.fromTokens (optTokens o) = o := by
  unfold SetCookieOptions.fromTokens optTokens
  rw [hss]
  rw [List.foldl_append, List.foldl_append, List.foldl_append, List.foldl_append,
    List.foldl_append]
  rw [foldl_optList_domain _ hdom, foldl_optList_maxAge _ hma, foldl_optList_path _ hpath]
  rw [show optList (fun s => ("SameSite=".data) ++ SameSite.as_str s)
    (none : Option SameSite) = [] from rfl]
  rw [List.foldl_nil, foldl_httpOnlyTok, foldl_secureTok]
  simp only [option_or_none, Bool.false_or]
  rw [← hss]

/-! ## Token-list facts for the round trip -/

theorem map_trim_eq_self {l : List Str} (h : ∀ t ∈ l, trim t = t) :
    l.map trim = l := by
  induction l with
  | nil => rfl
  | cons t ts ih =>
    rw [List.map_cons, h t (List.mem_cons_self ..),
      ih (fun u hu => h u (List.mem_cons_of_mem _ hu))]

theorem trim_eq_self_of_no_ws {s : Str} (h : ∀ c ∈ s, Char.isWhitespace c = false) :
    trim s = s := by
  unfold trim
  have h1 : trimStart s = s := by
    cases s with
    | nil => rfl
    | cons c cs => exact trimStart_cons_of_not_ws _ (h c (List.mem_cons_self ..))
  rw [h1]
  rcases hr : s.reverse with _ | ⟨c, r⟩
  · have : s = [] := by simpa using congrArg List.reverse hr
    simp [this, trimEnd]
  · have hs : s = r.reverse ++ [c] := by simpa using congrArg List.reverse hr
    rw [hs]
    exact trimEnd_concat _ (h c (by rw [hs]; exact List.mem_append_right _ (by simp)))

/-- Every attribute token emitted by `fmt` is free of `;`, given that the
formatted `domain`/`path` values are. -/
theorem optTokens_no_semi {o : SetCookieOptions}
    (hdom : ∀ d, o.domain = some d → ';' ∉ d)
    (hpath : ∀ p, o.path = some p → ';' ∉ p) :
    ∀ t ∈ optTokens o, ';' ∉ t := by
  intro t ht
  unfold optTokens at ht
  simp only [List.mem_append] at ht
  rcases ht with ((((hd | hm) | hp) | hs) | hh) | hsec
  · obtain ⟨d, hdo, rfl⟩ := mem_optList.mp hd
    intro hmem
    rcases List.mem_append.mp hmem with h | h
    · revert h
      decide
    · exact hdom d hdo h
  · obtain ⟨m, _, rfl⟩ := mem_optList.mp hm
    intro hmem
    rcases List.mem_append.mp hmem with h | h
    · revert h
      decide
    · exact intToStr_no_semi h
  · obtain ⟨p, hpo, rfl⟩ := mem_optList.mp hp
    intro hmem
    rcases List.mem_append.mp hmem with h | h
    · revert h
      decide
    · exact hpath p hpo h
  · obtain ⟨ss, _, rfl⟩ := mem_optList.mp hs
    intro hmem
    rcases List.mem_append.mp hmem with h | h
    · revert h
      decide
    · cases ss <;> revert h <;> decide
  · by_cases hb : o.http_only = true
    · rw [if_pos hb, List.mem_singleton] at hh
      rw [hh]
      decide
    · rw [if_neg hb] at hh
      cases hh
  · by_cases hb : o.secure = true
    · rw [if_pos hb, List.mem_singleton] at hsec
      rw [hsec]
      decide
    · rw [if_neg hb] at hsec
      cases hsec

/-- Every attribute token emitted by `fmt` is fixed by `trim`, given that
the formatted `domain`/`path` values have no trailing whitespace. -/
theorem no_ws_of_all {s : Str} (hall : s.all (fun c => !Char.isWhitespace c) = true) :
    ∀ c ∈ s, Char.isWhitespace c = false := by
  intro c hc
  have := List.all_eq_true.mp hall c hc
  simpa using this

theorem optTokens_trim {o : SetCookieOptions}
    (hdom : ∀ d, o.domain = some d → trimEnd d = d)
    (hpath : ∀ p, o.path = some p → trimEnd p = p) :
    ∀ t ∈ optTokens o, trim t = t := by
  intro t ht
  unfold optTokens at ht
  simp only [List.mem_append] at ht
  rcases ht with ((((hd | hm) | hp) | hs) | hh) | hsec
  · obtain ⟨d, hdo, rfl⟩ := mem_optList.mp hd
    unfold trim
    rw [show trimStart (("Domain=".data) ++ d) = ("Domain=".data) ++ d from
      trimStart_cons_of_not_ws _ (by decide)]
    rcases hdn : d with _ | ⟨c, cs⟩
    · decide
    · rw [← hdn]
      exact trimEnd_append (hdom d hdo) (by rw [hdn]; simp)
  · obtain ⟨m, _, rfl⟩ := mem_optList.mp hm
    apply trim_eq_self_of_no_ws
    intro c hc
    rcases List.mem_append.mp hc with h | h
    · exact no_ws_of_all (by decide) c h
    · exact intToStr_no_ws c h
  · obtain ⟨p, hpo, rfl⟩ := mem_optList.mp hp
    unfold trim
    rw [show trimStart (("Path=".data) ++ p) = ("Path=".data) ++ p from
      trimStart_cons_of_not_ws _ (by decide)]
    rcases hpn : p with _ | ⟨c, cs⟩
    · decide
    · rw [← hpn]
      exact trimEnd_append (hpath p hpo) (by rw [hpn]; simp)
  · obtain ⟨ss, _, rfl⟩ := mem_optList.mp hs
    cases ss <;> decide
  · by_cases hb : o.http_only = true
    · rw [if_pos hb, List.mem_singleton] at hh
      rw [hh]
      decide
    · rw [if_neg hb] at hh
      cases hh
  · by_cases hb : o.secure = true
    · rw [if_pos hb, List.mem_singleton] at hsec
      rw [hsec]
      decide
    · rw [if_neg hb] at hsec
      cases hsec

/-- With `same_site` absent, every attribute token emitted by `fmt` is
recognized by the classifier. -/
theorem optTokens_isOpt {o : SetCookieOptions} (hss : o.same_site = none) :
    ∀ t ∈ optTokens o, SetCookieOptions.is_set_cookie_option t = true := by
  intro t ht
  unfold optTokens at ht
  rw [hss] at ht
  simp only [List.mem_append] at ht
  rcases ht with ((((hd | hm) | hp) | hs) | hh) | hsec
  · obtain ⟨d, _, rfl⟩ := mem_optList.mp hd
    exact is_set_cookie_option_domainTok d
  · obtain ⟨m, _, rfl⟩ := mem_optList.mp hm
    exact is_set_cookie_option_maxAgeTok m
  · obtain ⟨p, _, rfl⟩ := mem_optList.mp hp
    exact is_set_cookie_option_pathTok p
  · cases hs
  · by_cases hb : o.http_only = true
    · rw [if_pos hb, List.mem_singleton] at hh
      rw [hh]
      exact is_set_cookie_option_httpOnlyTok
    · rw [if_neg hb] at hh
      cases hh
  · by_cases hb : o.secure = true
    · rw [if_pos hb, List.mem_singleton] at hsec
      rw [hsec]
      exact is_set_cookie_option_secureTok
    · rw [if_neg hb] at hsec
      cases hsec

/-- Evaluation of one `Set-Cookie` parsing step when the trimmed token
list is a non-attribute pair token followed by attribute tokens. -/
theorem insertRaw_known (store : SetCookieStore) {raw t0 : Str} {ts : List Str}
    (hsplit : (splitOnChar ';' raw).map trim = t0 :: ts)
    (ht0 : SetCookieOptions.is_set_cookie_option t0 = false)
    (hopt : ∀ t ∈ ts, SetCookieOptions.is_set_cookie_option t = true)
    {k v : Str} (hk : (splitOnChar '=' t0).get? 0 = some k)
    (hv : (splitOnChar '=' t0).get? 1 = some v) :
    SetCookie.insertRaw store raw =
      mapInsert k (v, SetCookieOptions.fromTokens ts) store := by
  have hself : List.filter (fun st => SetCookieOptions.is_set_cookie_option st) ts = ts :=
    List.filter_eq_self.mpr hopt
  have hnil : List.filter (fun st => !SetCookieOptions.is_set_cookie_option st) ts = [] :=
    List.filter_eq_nil_iff.mpr (by
      intro t htm
      rw [hopt t htm]
      simp)
  unfold SetCookie.insertRaw
  rw [hsplit]
  simp only [List.filter_cons, ht0, Bool.not_false, Bool.false_eq_true, if_false, if_true,
    hself, hnil, List.head?_cons, hk, hv]

/-- C1 (amended): round trip of `SetCookieStore` formatting and parsing.
For a name and value free of `;`/`=` (with no leading whitespace on the
name, no trailing whitespace on the value, and a name that is not itself
an attribute label), and attributes with `same_site` unset, `domain` and
`path` free of `;`/`=`/uppercase-ASCII/trailing whitespace, and
`max_age` in `i64` range, parsing the single formatted line yields
exactly the original entry. -/
theorem c1_parse_fmt_roundTrip (name value : Str) (o : SetCookieOptions)
    (hss : o.same_site = none)
    (hnsemi : ';' ∉ name) (hneq : '=' ∉ name) (hnws : trimStart name = name)
    (hnd : toLowercase name ≠ ("domain".data))
    (hnm : toLowercase name ≠ ("max-age".data))
    (hnp : toLowercase name ≠ ("path".data))
    (hvsemi : ';' ∉ value) (hveq : '=' ∉ value) (hvws : trimEnd value = value)
    (hdom : ∀ d, o.domain = some d →
      ';' ∉ d ∧ '=' ∉ d ∧ toLowercase d = d ∧ trimEnd d = d)
    (hpath : ∀ p, o.path = some p →
      ';' ∉ p ∧ '=' ∉ p ∧ toLowercase p = p ∧ trimEnd p = p)
    (hma : ∀ m, o.max_age = some m →
      -9223372036854775808 ≤ m ∧ m ≤ 9223372036854775807) :
    SetCookie.fromRaws [fmt name value o] = [(name, (value, o))] := by
  have ht0semi : ';' ∉ name ++ '=' :: value := by
    intro h
    rcases List.mem_append.mp h with h | h
    · exact hnsemi h
    · rcases List.mem_cons.mp h with h | h
      · exact absurd h (by decide)
      · exact hvsemi h
  have hallsemi : ∀ t ∈ (name ++ '=' :: value) :: optTokens o, ';' ∉ t := by
    intro t ht
    rcases List.mem_cons.mp ht with rfl | ht
    · exact ht0semi
    · exact optTokens_no_semi (fun d hd => (hdom d hd).1) (fun p hp => (hpath p hp).1) t ht
  have ht0trim : trim (name ++ '=' :: value) = name ++ '=' :: value := by
    unfold trim
    have h1 : trimStart (name ++ '=' :: value) = name ++ '=' :: value := by
      cases name with
      | nil => exact trimStart_cons_of_not_ws _ (by decide)
      | cons c cs => exact trimStart_cons_of_not_ws _ (not_ws_of_trimStart_cons hnws)
    rw [h1]
    cases value with
    | nil => exact trimEnd_concat name (by decide)
    | cons c cs =>
      rw [show name ++ '=' :: (c :: cs) = (name ++ ['=']) ++ (c :: cs) from by simp]
      exact trimEnd_append hvws (by simp)
  have htrim : List.map trim ((name ++ '=' :: value) :: optTokens o)
      = (name ++ '=' :: value) :: optTokens o := by
    apply map_trim_eq_self
    intro t ht
    rcases List.mem_cons.mp ht with rfl | ht
    · exact ht0trim
    · exact optTokens_trim (fun d hd => (hdom d hd).2.2.2)
        (fun p hp => (hpath p hp).2.2.2) t ht
  have hsegs : splitOnChar '=' (name ++ '=' :: value) = [name, value] := by
    rw [splitOnChar_append_sep value hneq, splitOnChar_of_not_mem hveq]
  have hsp : (splitOnChar ';' (fmt name value o)).map trim
      = (name ++ '=' :: value) :: optTokens o := by
    rw [fmt_eq_joinTokens, splitOnChar_joinTokens (by simp) hallsemi]
    exact htrim
  have hkf : (splitOnChar '=' (name ++ '=' :: value)).get? 0 = some name := by
    rw [hsegs]
    rfl
  have hvf : (splitOnChar '=' (name ++ '=' :: value)).get? 1 = some value := by
    rw [hsegs]
    rfl
  have hins := insertRaw_known ([] : SetCookieStore) hsp
    (is_set_cookie_option_pair_false hneq hnd hnm hnp) (optTokens_isOpt hss) hkf hvf
  unfold SetCookie.fromRaws
  rw [List.foldl_cons, List.foldl_nil, hins,
    fromTokens_optTokens hss (fun d hd => ⟨(hdom d hd).2.2.1, (hdom d hd).2.1⟩)
      (fun p hp => ⟨(hpath p hp).2.2.1, (hpath p hp).2.1⟩) hma]
  rfl

/-! ## Helpers for the remaining claims -/

/-- The request-cookie fold aborts with `none` whenever some segment has
no `=`. -/
theorem from_cookie_fold_none :
    ∀ (l : List Str) (acc : CookieInner), (∃ x ∈ l, '=' ∉ x) →
      List.foldlM (fun inner key_value => (splitOnce '=' key_value).map
        (fun p => mapInsert (trim p.1) p.2 inner)) acc l = none := by
  intro l
  induction l with
  | nil =>
    rintro acc ⟨x, hx, _⟩
    cases hx
  | cons a as ih =>
    rintro acc ⟨x, hx, hne⟩
    rcases List.mem_cons.mp hx with rfl | hx
    · simp [List.foldlM_cons, splitOnce_eq_none hne]
    · rcases hsp : splitOnce '=' a with _ | p
      · simp [List.foldlM_cons, hsp]
      · simp only [List.foldlM_cons, hsp, Option.map_some, Option.some_bind]
        exact ih _ ⟨x, hx, hne⟩

/-- A raw `Set-Cookie` value whose first non-attribute token is missing
(or has no `=`, so that no value segment exists) is skipped. -/
theorem insertRaw_skip {raw : Str}
    (h : ((((splitOnChar ';' raw).map trim).filter
        (fun st => !(SetCookieOptions.is_set_cookie_option st))).head?).bind
      (fun st => (splitOnChar '=' st).get? 1) = none) :
    ∀ store : SetCookieStore, SetCookie.insertRaw store raw = store := by
  intro store
  simp only [SetCookie.insertRaw]
  rcases hh : (((splitOnChar ';' raw).map trim).filter
      (fun st => !(SetCookieOptions.is_set_cookie_option st))).head? with _ | st
  · rfl
  · rw [hh, Option.some_bind] at h
    dsimp only
    rw [h]
    rcases (splitOnChar '=' st).get? 0 with _ | k <;> rfl

theorem trimStart_pair {k : Str} (rest : Str) (h : trimStart k = k) :
    trimStart (k ++ '=' :: rest) = k ++ '=' :: rest := by
  cases k with
  | nil => exact trimStart_cons_of_not_ws _ (by decide)
  | cons c cs => exact trimStart_cons_of_not_ws _ (not_ws_of_trimStart_cons h)

theorem trimEnd_pair (v1 : Str) {v2 : Str} (h : trimEnd v2 = v2) :
    trimEnd (v1 ++ '=' :: v2) = v1 ++ '=' :: v2 := by
  cases v2 with
  | nil => exact trimEnd_concat v1 (by decide)
  | cons c cs =>
    rw [show v1 ++ '=' :: (c :: cs) = (v1 ++ ['=']) ++ (c :: cs) from by simp]
    exact trimEnd_append h (by simp)

/-! ## Claim theorems -/

/-- Spec-side rendering of a `Set-Cookie` entry, written from the spec's
words for claim C2: `name=value`, then `;Domain=<domain>` if present,
`;Max-Age=<max_age>` if present, `;Path=<path>` if present,
`;SameSite=<same_site>` if present, `;HttpOnly` if true, `;Secure` if
true, in this fixed order, with no space after any `;` and no other
characters. -/
def specFormatEntry (name value : Str) (o : SetCookieOptions) : Str :=
  name ++ '=' :: value
    ++ (match o.domain with
        | Option.some d => (";Domain=".data) ++ d
        | Option.none => [])
    ++ (match o.max_age with
        | Option.some m => (";Max-Age=".data) ++ intToStr m
        | Option.none => [])
    ++ (match o.path with
        | Option.some p => (";Path=".data) ++ p
        | Option.none => [])
    ++ (match o.same_site with
        | Option.some s => (";SameSite=".data) ++ SameSite.as_str s
        | Option.none => [])
    ++ (if o.http_only then (";HttpOnly".data) else [])
    ++ (if o.secure then (";Secure".data) else [])

/-- C2: for every name, value and attribute record, the source's `fmt`
produces exactly the spec's string: `name=value` followed, in this fixed
order, by `;Domain=`, `;Max-Age=`, `;Path=`, `;SameSite=`, `;HttpOnly`,
`;Secure` for the fields that are set, with no space after any `;` and
no other characters. -/
theorem c2_fmt_field_order (name value : Str) (o : SetCookieOptions) :
    fmt name value o = specFormatEntry name value o := by
  rcases o with ⟨ho, hs, hm, hd, hp, hss⟩
  cases ho <;> cases hs <;> cases hm <;> cases hd <;> cases hp <;> cases hss <;>
    simp [fmt, specFormatEntry, List.append_assoc]

/-- C3 (counterexample): parsing the empty request `Cookie` header does
not produce a one-entry map with empty key and value; it produces no
result at all. -/
theorem c3_empty_cookie_counterexample :
    Cookie.from_cookie [] ≠ some [(([] : Str), ([] : Str))] ∧
      Cookie.from_cookie [] = none := by decide

/-- C3 (amended): parsing the empty string as a request `Cookie` header
yields no result (`none`): the single empty segment contains no `=`, so
the whole parse fails; it yields neither a one-entry map nor an empty
map. -/
theorem c3_empty_cookie_fails : Cookie.from_cookie [] = none := by decide

/-- C4: for every request `Cookie` header string in which at least one
`;`-separated segment contains no `=`, parsing yields no result at all
(`none`), not a partial map; in particular parsing `novalue` yields no
result. -/
theorem c4_malformed_cookie_fails :
    (∀ raw : Str, (∃ seg ∈ splitOnChar ';' raw, '=' ∉ seg) →
      Cookie.from_cookie raw = none) ∧
    Cookie.from_cookie ("novalue".data) = none := by
  constructor
  · intro raw hseg
    exact from_cookie_fold_none _ _ hseg
  · decide

theorem c4_malformed_cookie_fails_witness :
    Cookie.from_cookie ("a=1;novalue".data) = none :=
  c4_malformed_cookie_fails.1 ("a=1;novalue".data)
    ⟨("novalue".data), by decide, by decide⟩

/-- C5 (counterexample): the attribute builder maps the token `path=` to
the empty path, not to the documented default `/`. -/
theorem c5_path_empty_counterexample :
    (SetCookieOptions.fromTokens [("path=".data)]).path = some [] ∧
      some ([] : Str) ≠ some ("/".data) := by decide

/-- C5 (amended): for every attribute token beginning (case-insensitively)
with `path=`, the builder sets `path` to the segment of the lowercased
token strictly between its first and second `=` — the empty string when
nothing follows the `=`, never the `/` fallback, which is unreachable
for such tokens; in particular `path=` yields the empty path. -/
theorem c5_path_capture :
    (∀ t : Str, startsWith (toLowercase t) ("path=".data) = true →
      (SetCookieOptions.fromTokens [t]).path =
        some ((splitOnChar '=' (toLowercase t)).getD 1 ("/".data))) ∧
    (SetCookieOptions.fromTokens [("path=".data)]).path = some [] := by
  constructor
  · intro t h
    obtain ⟨rest, hrest⟩ := startsWith_iff.mp h
    show (SetCookieOptions.applyToken {} t).path = _
    simp only [SetCookieOptions.applyToken]
    rw [hrest]
    rw [if_neg (by simp [startsWith]), if_neg (by simp [startsWith]),
      if_pos (by simp [startsWith])]
    rfl
  · decide

theorem c5_path_capture_witness :
    (SetCookieOptions.fromTokens [("PATH=/x".data)]).path =
      some ((splitOnChar '=' (toLowercase ("PATH=/x".data))).getD 1 ("/".data)) :=
  c5_path_capture.1 ("PATH=/x".data) (by decide)

/-- C6: the classifier returns true exactly when the lowercased token
starts with `max-age=`, `domain=` or `path=`, or equals `httponly` or
`secure`; and every token beginning (case-insensitively) with
`samesite=` is rejected by it. -/
theorem c6_classifier_spec (st : Str) :
    (SetCookieOptions.is_set_cookie_option st = true ↔
      (startsWith (toLowercase st) ("max-age=".data) = true ∨
        startsWith (toLowercase st) ("domain=".data) = true ∨
        startsWith (toLowercase st) ("path=".data) = true ∨
        toLowercase st = ("httponly".data) ∨
        toLowercase st = ("secure".data))) ∧
    (startsWith (toLowercase st) ("samesite=".data) = true →
      SetCookieOptions.is_set_cookie_option st = false) := by
  constructor
  · unfold SetCookieOptions.is_set_cookie_option
    simp only [Bool.or_eq_true, beq_iff_eq]
    tauto
  · intro h
    obtain ⟨rest, hrest⟩ := startsWith_iff.mp h
    unfold SetCookieOptions.is_set_cookie_option
    rw [hrest]
    simp [startsWith, beq_iff_eq]

theorem c6_classifier_spec_witness :
    SetCookieOptions.is_set_cookie_option ("SameSite=Lax".data) = false :=
  (c6_classifier_spec ("SameSite=Lax".data)).2 (by decide)

/-- C7: `SetCookieStore` parsing is total and entry-local: a raw value
with no usable `name=value` pair token (its first non-attribute token is
missing or has no `=`) is dropped without affecting the other entries;
in particular `["x=1", "not-a-pair", "y=2"]` parses to exactly the
entries for `x` and `y` with default attributes. -/
theorem c7_parse_skips_malformed :
    (∀ (pre post : List Str) (raw : Str),
      ((((splitOnChar ';' raw).map trim).filter
          (fun st => !(SetCookieOptions.is_set_cookie_option st))).head?).bind
        (fun st => (splitOnChar '=' st).get? 1) = none →
      SetCookie.fromRaws (pre ++ raw :: post) = SetCookie.fromRaws (pre ++ post)) ∧
    SetCookie.fromRaws [("x=1".data), ("not-a-pair".data), ("y=2".data)] =
      [(("x".data), (("1".data), {})), (("y".data), (("2".data), {}))] := by
  constructor
  · intro pre post raw h
    unfold SetCookie.fromRaws
    rw [List.foldl_append, List.foldl_append, List.foldl_cons,
      insertRaw_skip h]
  · decide

theorem c7_parse_skips_malformed_witness :
    SetCookie.fromRaws ([("x=1".data)] ++ ("not-a-pair".data) :: [("y=2".data)]) =
      SetCookie.fromRaws ([("x=1".data)] ++ [("y=2".data)]) :=
  c7_parse_skips_malformed.1 [("x=1".data)] [("y=2".data)] ("not-a-pair".data) (by decide)

/-- C8 (counterexample): two cookie maps holding the same entries in a
different internal arrangement (modelling `HashMap`'s unspecified,
seed-dependent iteration order) serialize to different strings, so
serialization is not a function of the entry set alone. -/
theorem c8_serialize_order_counterexample :
    Cookie.to_str [(("a".data), ("1".data)), (("b".data), ("2".data))] ≠
      Cookie.to_str [(("b".data), ("2".data)), (("a".data), ("1".data))] ∧
    List.Perm [(("a".data), ("1".data)), (("b".data), ("2".data))]
      [(("b".data), ("2".data)), (("a".data), ("1".data))] :=
  ⟨by decide, List.Perm.swap _ _ []⟩

/-- C8 (amended): serialization is deterministic only up to the map's
internal entry order: for maps with the same entries (as a permutation)
whose keys and values contain no `;`, the serialized strings consist of
the same `key=value` segments, possibly in a different order; the code
does not sort, so the byte strings themselves may differ. -/
theorem c8_serialize_perm (m1 m2 : CookieInner) (hperm : m1.Perm m2)
    (h1 : ∀ p ∈ m1, ';' ∉ p.1 ∧ ';' ∉ p.2) :
    (splitOnChar ';' (Cookie.to_str m1)).Perm (splitOnChar ';' (Cookie.to_str m2)) := by
  have htok : ∀ (m : CookieInner), (∀ p ∈ m, ';' ∉ p.1 ∧ ';' ∉ p.2) →
      ∀ t ∈ m.map (fun kv => kv.1 ++ '=' :: kv.2), ';' ∉ t := by
    intro m hm t ht
    obtain ⟨p, hp, rfl⟩ := List.mem_map.mp ht
    intro hmem
    rcases List.mem_append.mp hmem with h | h
    · exact (hm p hp).1 h
    · rcases List.mem_cons.mp h with h | h
      · exact absurd h (by decide)
      · exact (hm p hp).2 h
  cases m1 with
  | nil =>
    have : m2 = [] := List.length_eq_zero.mp (hperm.length_eq ▸ rfl)
    subst this
    exact List.Perm.refl _
  | cons p m1' =>
    rcases hm2 : m2 with _ | ⟨q, m2'⟩
    · exact absurd (hm2 ▸ hperm.length_eq) (by simp)
    · rw [← hm2]
      unfold Cookie.to_str
      rw [splitOnChar_joinTokens (by simp) (htok _ h1),
        splitOnChar_joinTokens (by rw [hm2]; simp)
          (htok _ (fun p2 hp2 => h1 p2 (hperm.mem_iff.mpr hp2)))]
      exact hperm.map _

theorem c8_serialize_perm_witness :
    (splitOnChar ';' (Cookie.to_str [(("a".data), ("1".data)), (("b".data), ("2".data))])).Perm
      (splitOnChar ';' (Cookie.to_str [(("b".data), ("2".data)), (("a".data), ("1".data))])) :=
  c8_serialize_perm _ _ (List.Perm.swap _ _ []) (by decide)

/-- Unfolding equation of `applyToken` with the `let` bindings expanded. -/
theorem applyToken_eq (options : SetCookieOptions) (st0 : Str) :
    options.applyToken st0 =
      (if startsWith (toLowercase st0) ("domain=".data) then
        { options with
            domain := some (((splitOnChar '=' (toLowercase st0)).get? 1).getD []) }
      else if startsWith (toLowercase st0) ("max-age=".data) then
        { options with
            max_age := some ((((splitOnChar '=' (toLowercase st0)).get? 1).bind
              parseI64).getD 0) }
      else if startsWith (toLowercase st0) ("path=".data) then
        { options with
            path := some (((splitOnChar '=' (toLowercase st0)).get? 1).getD ("/".data)) }
      else if startsWith (toLowercase st0) ("httponly".data) then
        { options with http_only := true }
      else if startsWith (toLowercase st0) ("secure".data) then
        { options with secure := true }
      else if startsWith (toLowercase st0) ("samesite".data) then
        match ((splitOnChar '=' (toLowercase st0)).get? 1).bind SameSite.fromStr with
        | Option.some same_site => { options with same_site := some same_site }
        | Option.none => options
      else options) := rfl

/-- After one builder step, `domain` is either unchanged or the captured
segment of the lowercased token. -/
theorem applyToken_domain_cases (acc : SetCookieOptions) (t : Str) :
    (acc.applyToken t).domain = acc.domain ∨
    (acc.applyToken t).domain =
      some (((splitOnChar '=' (toLowercase t)).get? 1).getD []) := by
  rw [applyToken_eq]
  by_cases h1 : startsWith (toLowercase t) ("domain=".data) = true
  · rw [if_pos h1]
    exact Or.inr rfl
  rw [if_neg h1]
  by_cases h2 : startsWith (toLowercase t) ("max-age=".data) = true
  · rw [if_pos h2]
    exact Or.inl rfl
  rw [if_neg h2]
  by_cases h3 : startsWith (toLowercase t) ("path=".data) = true
  · rw [if_pos h3]
    exact Or.inl rfl
  rw [if_neg h3]
  by_cases h4 : startsWith (toLowercase t) ("httponly".data) = true
  · rw [if_pos h4]
    exact Or.inl rfl
  rw [if_neg h4]
  by_cases h5 : startsWith (toLowercase t) ("secure".data) = true
  · rw [if_pos h5]
    exact Or.inl rfl
  rw [if_neg h5]
  by_cases h6 : startsWith (toLowercase t) ("samesite".data) = true
  · rw [if_pos h6]
    rcases h : ((splitOnChar '=' (toLowercase t)).get? 1).bind SameSite.fromStr
        with _ | ss <;> exact Or.inl rfl
  · rw [if_neg h6]
    exact Or.inl rfl

/-- After one builder step, `path` is either unchanged or the captured
segment of the lowercased token (with the `/` fallback). -/
theorem applyToken_path_cases (acc : SetCookieOptions) (t : Str) :
    (acc.applyToken t).path = acc.path ∨
    (acc.applyToken t).path =
      some (((splitOnChar '=' (toLowercase t)).get? 1).getD ("/".data)) := by
  rw [applyToken_eq]
  by_cases h1 : startsWith (toLowercase t) ("domain=".data) = true
  · rw [if_pos h1]
    exact Or.inl rfl
  rw [if_neg h1]
  by_cases h2 : startsWith (toLowercase t) ("max-age=".data) = true
  · rw [if_pos h2]
    exact Or.inl rfl
  rw [if_neg h2]
  by_cases h3 : startsWith (toLowercase t) ("path=".data) = true
  · rw [if_pos h3]
    exact Or.inr rfl
  rw [if_neg h3]
  by_cases h4 : startsWith (toLowercase t) ("httponly".data) = true
  · rw [if_pos h4]
    exact Or.inl rfl
  rw [if_neg h4]
  by_cases h5 : startsWith (toLowercase t) ("secure".data) = true
  · rw [if_pos h5]
    exact Or.inl rfl
  rw [if_neg h5]
  by_cases h6 : startsWith (toLowercase t) ("samesite".data) = true
  · rw [if_pos h6]
    rcases h : ((splitOnChar '=' (toLowercase t)).get? 1).bind SameSite.fromStr
        with _ | ss <;> exact Or.inl rfl
  · rw [if_neg h6]
    exact Or.inl rfl

/-- Characters of a segment captured from a lowercased token are never
uppercase ASCII. -/
theorem captured_not_upper {t : Str} {seg : Str} {c : Char}
    (hg : (splitOnChar '=' (toLowercase t)).get? 1 = some seg) (hc : c ∈ seg) :
    ¬(65 ≤ c.toNat ∧ c.toNat ≤ 90) := by
  have hseg : seg ∈ splitOnChar '=' (toLowercase t) := List.get?_mem hg
  have hctl : c ∈ toLowercase t := mem_of_mem_splitOnChar hseg hc
  obtain ⟨c0, _, rfl⟩ := List.mem_map.mp hctl
  exact lowerChar_not_upper c0

theorem fold_domain_not_upper :
    ∀ (xs : List Str) (acc : SetCookieOptions),
      (∀ d, acc.domain = some d → ∀ c ∈ d, ¬(65 ≤ c.toNat ∧ c.toNat ≤ 90)) →
      ∀ d, (List.foldl SetCookieOptions.applyToken acc xs).domain = some d →
        ∀ c ∈ d, ¬(65 ≤ c.toNat ∧ c.toNat ≤ 90) := by
  intro xs
  induction xs with
  | nil =>
    intro acc hacc
    simpa using hacc
  | cons t ts ih =>
    intro acc hacc
    rw [List.foldl_cons]
    apply ih
    intro d hd c hc
    rcases applyToken_domain_cases acc t with hcase | hcase
    · exact hacc d (hcase.symm.trans hd) c hc
    · rw [hcase] at hd
      obtain rfl := Option.some.inj hd
      rcases hg : (splitOnChar '=' (toLowercase t)).get? 1 with _ | seg
      · rw [hg] at hc
        cases hc
      · rw [hg, Option.getD_some] at hc
        exact captured_not_upper hg hc

theorem fold_path_not_upper :
    ∀ (xs : List Str) (acc : SetCookieOptions),
      (∀ p, acc.path = some p → ∀ c ∈ p, ¬(65 ≤ c.toNat ∧ c.toNat ≤ 90)) →
      ∀ p, (List.foldl SetCookieOptions.applyToken acc xs).path = some p →
        ∀ c ∈ p, ¬(65 ≤ c.toNat ∧ c.toNat ≤ 90) := by
  intro xs
  induction xs with
  | nil =>
    intro acc hacc
    simpa using hacc
  | cons t ts ih =>
    intro acc hacc
    rw [List.foldl_cons]
    apply ih
    intro p hp c hc
    rcases applyToken_path_cases acc t with hcase | hcase
    · exact hacc p (hcase.symm.trans hp) c hc
    · rw [hcase] at hp
      obtain rfl := Option.some.inj hp
      rcases hg : (splitOnChar '=' (toLowercase t)).get? 1 with _ | seg
      · rw [hg] at hc
        rcases List.mem_singleton.mp hc with rfl
        decide
      · rw [hg, Option.getD_some] at hc
        exact captured_not_upper hg hc

/-- C9: the attribute builder lowercases each token in full before
capturing, so every captured `domain` and `path` contains no uppercase
ASCII letter; concretely, `Domain=Example.COM` parses to domain
`example.com` and `SameSite=LAX` is recognized via its lowercased text. -/
theorem c9_lowercased_captures :
    (∀ (xs : List Str) (d : Str), (SetCookieOptions.fromTokens xs).domain = some d →
      ∀ c ∈ d, ¬(65 ≤ c.toNat ∧ c.toNat ≤ 90)) ∧
    (∀ (xs : List Str) (p : Str), (SetCookieOptions.fromTokens xs).path = some p →
      ∀ c ∈ p, ¬(65 ≤ c.toNat ∧ c.toNat ≤ 90)) ∧
    SetCookie.fromRaws [("k=v; Domain=Example.COM".data)] =
      [(("k".data), (("v".data), { domain := some ("example.com".data) }))] ∧
    (SetCookieOptions.fromTokens [("SameSite=LAX".data)]).same_site =
      some SameSite.Lax := by
  refine ⟨?_, ?_, by decide, by decide⟩
  · intro xs d hd
    exact fold_domain_not_upper xs {} (fun d0 hd0 => by cases hd0) d hd
  · intro xs p hp
    exact fold_path_not_upper xs {} (fun p0 hp0 => by cases hp0) p hp

theorem c9_lowercased_captures_witness :
    ¬(65 ≤ ('e' : Char).toNat ∧ ('e' : Char).toNat ≤ 90) :=
  c9_lowercased_captures.1 [("Domain=Example.COM".data)] ("example.com".data)
    (by decide) 'e' (by decide)

/-- C10: in `SetCookieStore` parsing the stored value of a `k=v1=v2`
pair token is exactly `v1`, the text strictly between the first and
second `=` (the rest is discarded), while request-side `CookieMap`
parsing splits once and keeps `v1=v2` as the value. -/
theorem c10_value_between_eqs :
    (∀ (k v1 v2 : Str), ';' ∉ k → ';' ∉ v1 → ';' ∉ v2 → '=' ∉ k → '=' ∉ v1 →
      trimStart k = k → trimEnd k = k → trimEnd v2 = v2 →
      toLowercase k ≠ ("domain".data) → toLowercase k ≠ ("max-age".data) →
      toLowercase k ≠ ("path".data) →
      SetCookie.fromRaws [k ++ '=' :: (v1 ++ '=' :: v2)] =
        [(k, (v1, ({} : SetCookieOptions)))] ∧
      Cookie.from_cookie (k ++ '=' :: (v1 ++ '=' :: v2)) =
        some [(k, v1 ++ '=' :: v2)]) ∧
    SetCookie.fromRaws [("k=v1=v2".data)] = [(("k".data), (("v1".data), {}))] ∧
    Cookie.from_cookie ("k=v1=v2".data) = some [(("k".data), ("v1=v2".data))] := by
  refine ⟨?_, by decide, by decide⟩
  intro k v1 v2 hks hv1s hv2s hke hv1e hkt1 hkt2 hv2t hnd hnm hnp
  have hsemi : ';' ∉ k ++ '=' :: (v1 ++ '=' :: v2) := by
    intro h
    rcases List.mem_append.mp h with h | h
    · exact hks h
    · rcases List.mem_cons.mp h with h | h
      · exact absurd h (by decide)
      · rcases List.mem_append.mp h with h | h
        · exact hv1s h
        · rcases List.mem_cons.mp h with h | h
          · exact absurd h (by decide)
          · exact hv2s h
  have htrim : trim (k ++ '=' :: (v1 ++ '=' :: v2)) = k ++ '=' :: (v1 ++ '=' :: v2) := by
    unfold trim
    rw [trimStart_pair _ hkt1]
    exact trimEnd_pair k (trimEnd_pair v1 hv2t)
  have htrimk : trim k = k := by
    unfold trim
    rw [hkt1, hkt2]
  have hsp : (splitOnChar ';' (k ++ '=' :: (v1 ++ '=' :: v2))).map trim
      = [k ++ '=' :: (v1 ++ '=' :: v2)] := by
    rw [splitOnChar_of_not_mem hsemi, List.map_cons, List.map_nil, htrim]
  have hsegs : splitOnChar '=' (k ++ '=' :: (v1 ++ '=' :: v2))
      = k :: v1 :: splitOnChar '=' v2 := by
    rw [splitOnChar_append_sep _ hke, splitOnChar_append_sep _ hv1e]
  have hins := insertRaw_known ([] : SetCookieStore) hsp
    (is_set_cookie_option_pair_false hke hnd hnm hnp)
    (by intro t ht; cases ht)
    (by rw [hsegs]; rfl) (by rw [hsegs]; rfl)
  constructor
  · unfold SetCookie.fromRaws
    rw [List.foldl_cons, List.foldl_nil, hins]
    rfl
  · unfold Cookie.from_cookie
    rw [splitOnChar_of_not_mem hsemi, List.foldlM_cons, splitOnce_append _ hke]
    simp only [Option.map_some', Option.some_bind, List.foldlM_nil, htrimk]
    rfl

theorem c10_value_between_eqs_witness :
    SetCookie.fromRaws [("k".data) ++ '=' :: (("v1".data) ++ '=' :: ("v2".data))] =
      [(("k".data), (("v1".data), ({} : SetCookieOptions)))] ∧
    Cookie.from_cookie (("k".data) ++ '=' :: (("v1".data) ++ '=' :: ("v2".data))) =
      some [(("k".data), ("v1".data) ++ '=' :: ("v2".data))] :=
  c10_value_between_eqs.1 ("k".data) ("v1".data) ("v2".data) (by decide) (by decide)
    (by decide) (by decide) (by decide) (by decide) (by decide) (by decide)
    (by decide) (by decide) (by decide)

/-- C1 (counterexample): formatting an entry whose only attribute is
`SameSite=Strict` and re-parsing it loses the attribute: the classifier
does not recognize `SameSite=...`, the token lands in the pair-token
partition, and the attribute builder never sees it. -/
theorem c1_roundTrip_counterexample :
    SetCookie.fromRaws [fmt ("n".data) ("v".data) { same_site := some SameSite.Strict }] ≠
      [(("n".data), (("v".data),
        ({ same_site := some SameSite.Strict } : SetCookieOptions)))] ∧
    SetCookie.fromRaws [fmt ("n".data) ("v".data) { same_site := some SameSite.Strict }] =
      [(("n".data), (("v".data), ({} : SetCookieOptions)))] := by decide

theorem c1_parse_fmt_roundTrip_witness :
    SetCookie.fromRaws [fmt ("n".data) ("v".data)
        { http_only := true, secure := true, max_age := some (-7),
          domain := some ("ex.com".data), path := some ("/a".data) }] =
      [(("n".data), (("v".data),
        { http_only := true, secure := true, max_age := some (-7),
          domain := some ("ex.com".data), path := some ("/a".data) }))] :=
  c1_parse_fmt_roundTrip ("n".data) ("v".data) _ rfl (by decide) (by decide) (by decide)
    (by decide) (by decide) (by decide) (by decide) (by decide) (by decide)
    (fun d hd => by cases hd; decide)
    (fun p hp => by cases hp; decide)
    (fun m hm => by cases hm; decide)
